import Mathlib

/-!
Verification development for the screen-recorder repository.

The first part embeds `FfmpegEncoder` from `src/ffmpeg_encoder.rs`:
the video rolling buffer with its keyframe-aware eviction
(`process_frame`, lines 124-156) and the audio ingestion path
(`process_audio`, lines 161-216).

The second part embeds `save_buffer` and the event loop from `src/main.rs`.
The buffer module `encoders::buffer` used by `main.rs` is not part of the
sources, so its accessors (`get_last_gop_start`, `get_frames`, `oldest_pts`)
and the audio-side eviction are modelled from the specification, as marked
in their doc comments.
-/

namespace ScreenRecorder

/-- One encoded video frame as retained by `FfmpegEncoder.video_buffer`
(`VideoFrameData` in `src/ffmpeg_encoder.rs`): the capture timestamp
`time_micro`, together with the keyframe flag `packet.is_key()` the packet
carried when it was pushed (the Rust struct does not store the flag; it is
kept here so that statements can speak about which buffered frames were
keyframes, which the code tracks only through `keyframe_indexes`). -/
structure VideoFrame where
  isKey : Bool
  time : Int
deriving DecidableEq

/-- The video-side state of `FfmpegEncoder`: the frame queue
`video_buffer` and the positional index set `keyframe_indexes`. -/
structure EncState where
  buffer : List VideoFrame
  kfIdx : List Nat
deriving DecidableEq

/-- The guard of the eviction loop in `process_frame`
(`src/ffmpeg_encoder.rs:129-133`): there is an oldest and a newest frame,
`newest.time - oldest.time >= max_time as i64`, and
`keyframe_indexes.len() > 0`. -/
def evictCond (maxT : Nat) (s : EncState) : Bool :=
  match s.buffer.head?, s.buffer.getLast? with
  | some o, some n => decide ((maxT : Int) ≤ n.time - o.time) && decide (s.kfIdx ≠ [])
  | _, _ => false

/-- One iteration of the eviction loop body (`src/ffmpeg_encoder.rs:134-144`):
drain the frames before the first indexed keyframe
(`drain(0..keyframe_indexes[0])`), shift every index down by the number of
drained frames, and drop any index that became `0`. -/
def drainOnce (s : EncState) : EncState :=
  let d := s.kfIdx.headD 0
  { buffer := s.buffer.drop d
    kfIdx := (s.kfIdx.map (fun i => i - d)).filter (fun i => decide (i ≠ 0)) }

/-- The eviction `while` loop, run with explicit fuel.  Under the keyframe
index invariant every drain removes at least one frame, so fuel equal to the
buffer length (as used by `evict`) is never exhausted. -/
def evictLoop (maxT : Nat) : Nat → EncState → EncState
  | 0, s => s
  | n + 1, s => if evictCond maxT s then evictLoop maxT n (drainOnce s) else s

/-- The complete eviction pass performed by `process_frame` before the new
frame is appended (`src/ffmpeg_encoder.rs:129-149`). -/
def evict (maxT : Nat) (s : EncState) : EncState :=
  evictLoop maxT s.buffer.length s

/-- The tail of `process_frame` (`src/ffmpeg_encoder.rs:151-154`):
`video_buffer.push_back(frame_data)`, and if the packet was a keyframe and
the buffer now holds more than one frame, record its position in
`keyframe_indexes`. -/
def pushBack (s : EncState) (f : VideoFrame) : EncState :=
  let buf := s.buffer ++ [f]
  { buffer := buf
    kfIdx :=
      if f.isKey && decide (1 < buf.length) then s.kfIdx ++ [buf.length - 1]
      else s.kfIdx }

/-- The buffer-management part of `process_frame` for one emitted packet:
the eviction pass followed by the push. -/
def processFrame (maxT : Nat) (s : EncState) (f : VideoFrame) : EncState :=
  pushBack (evict maxT s) f

/-- Feeding a whole sequence of emitted packets through `process_frame`,
starting from the freshly constructed encoder (`FfmpegEncoder::new`). -/
def runFrames (maxT : Nat) (fs : List VideoFrame) : EncState :=
  fs.foldl (processFrame maxT) ⟨[], []⟩

/-- The keyframe index set invariant maintained by `process_frame`:
the entries are strictly increasing, strictly positive, in bounds,
every indexed frame is a keyframe, and conversely every keyframe strictly
after the front is indexed. -/
def KfInv (s : EncState) : Prop :=
  s.kfIdx.Pairwise (· < ·) ∧
  (∀ i ∈ s.kfIdx, 0 < i ∧ i < s.buffer.length) ∧
  (∀ i ∈ s.kfIdx, ∀ f, s.buffer[i]? = some f → f.isKey = true) ∧
  (∀ i f, s.buffer[i]? = some f → 0 < i → f.isKey = true → i ∈ s.kfIdx)

/-- One frame of regrouped audio as retained by
`FfmpegEncoder.audio_buffer` (`AudioFrameData` in `src/ffmpeg_encoder.rs`):
a timestamp and the encoded packet bytes. -/
structure AudioFrameData where
  time : Int
  bytes : List Nat
deriving DecidableEq

/-- The ffmpeg error value returned by `process_audio` on malformed input
(`ffmpeg::Error::InvalidData`). -/
inductive FfmpegError where
  | invalidData
deriving DecidableEq

/-- The regrouping loop of `process_audio` (`src/ffmpeg_encoder.rs:176-213`),
iterating `f` over `0..num_frames` with explicit remaining-iteration count.
For each regrouped frame the timestamp is `previous_frame.time + frame_size`
when the audio buffer is non-empty and the truncated integer
`time_micro * total_samples / 1_000_000` otherwise; the frame is sent to the
encoder, and every packet the encoder emits (`emissions f`) is appended to
the audio buffer with that timestamp.  The loop breaks when the next chunk
`[f*frame_size, f*frame_size+frame_size)` would overrun the input. -/
def audioLoop (frameSize : Nat) (emissions : Nat → List (List Nat))
    (timeMicro : Int) (totalSamples : Nat) :
    Nat → Nat → List AudioFrameData → List AudioFrameData
  | 0, _, buf => buf
  | n + 1, f, buf =>
    let pts : Int :=
      match buf.getLast? with
      | some prev => prev.time + (frameSize : Int)
      | none => (timeMicro * (totalSamples : Int)).tdiv 1000000
    if f * frameSize + frameSize > totalSamples then buf
    else
      audioLoop frameSize emissions timeMicro totalSamples n (f + 1)
        (buf ++ (emissions f).map (fun d => ⟨pts, d⟩))

/-- `FfmpegEncoder::process_audio` (`src/ffmpeg_encoder.rs:161-216`),
abstracted over the encoder's packet emissions.  `nChannels` is
`audio_encoder.channels()`, `frameSize` is `audio_encoder.frame_size()`,
`totalSamples` the length of the `f32` view of the input.  If the sample
count is not divisible by the channel count the call fails with
`InvalidData` before touching the buffer; otherwise
`num_frames = total_samples / frame_size` regrouped frames are processed.
The returned pair is the call's result together with the audio buffer after
the call. -/
def process_audio (nChannels frameSize : Nat) (buf : List AudioFrameData)
    (totalSamples : Nat) (timeMicro : Int)
    (emissions : Nat → List (List Nat)) :
    Except FfmpegError Unit × List AudioFrameData :=
  if totalSamples % nChannels ≠ 0 then (.error .invalidData, buf)
  else
    (.ok (),
      audioLoop frameSize emissions timeMicro totalSamples
        (totalSamples / frameSize) 0 buf)

/-- Modelled from the spec: the audio stream buffer's eviction pass.  The
`AudioBuffer` type of the `encoders::buffer` module used by `src/main.rs` is
absent from the sources; per the spec, audio eviction "uses the same span
test but has no boundary constraint, trimming down to the window edge
directly": while `newest.pts - oldest.pts >= max_duration_micros`, the
oldest frame is dropped. -/
def audioEvict (maxT : Nat) : List AudioFrameData → List AudioFrameData
  | [] => []
  | f :: rest =>
    if (maxT : Int) ≤ ((f :: rest).getLast (List.cons_ne_nil f rest)).time - f.time
    then audioEvict maxT rest
    else f :: rest

/-- One entry of the video buffer consumed by `save_buffer` in
`src/main.rs`: the map key (a decode timestamp), the frame's presentation
timestamp, its keyframe flag, and the encoded bytes.  The backing
`VideoBuffer` (module `encoders::buffer`) is absent from the sources; per
the spec it is an ordered sequence keyed by monotonically non-decreasing
timestamp, modelled here as a list sorted by `dts`. -/
structure VEntry where
  dts : Int
  pts : Int
  isKey : Bool
  bytes : List Nat
deriving DecidableEq

/-- One entry of the audio buffer consumed by `save_buffer` in
`src/main.rs`: the frame's presentation timestamp in microseconds (also its
map key) and the encoded bytes. -/
structure AEntry where
  pts : Int
  bytes : List Nat
deriving DecidableEq

/-- The externally visible side effects of `save_buffer`, in the order they
are performed: creation of the output file (`ffmpeg::format::output`),
`write_header`, one event per interleaved packet write, `write_trailer`. -/
inductive Ev where
  | fileCreated
  | headerWritten
  | videoPacket (pts dts : Int) (bytes : List Nat)
  | audioPacket (pts dts : Int) (bytes : List Nat)
  | trailerWritten
deriving DecidableEq

/-- Modelled from the spec: `VideoBuffer::get_last_gop_start` (module
`encoders::buffer`, absent from the sources) — the key of the last keyframe
boundary recorded in the video buffer, if any. -/
def lastGopStart (v : List VEntry) : Option Int :=
  ((v.filter (fun e => e.isKey)).getLast?).map (fun e => e.dts)

/-- Modelled from the spec: `oldest_pts` of a stream buffer (module
`encoders::buffer`, absent from the sources) — the pts of the oldest
retained frame, `None` on an empty buffer. -/
def oldestVideoPts (v : List VEntry) : Option Int :=
  v.head?.map (fun e => e.pts)

/-- Modelled from the spec: `oldest_pts` of the audio buffer. -/
def oldestAudioPts (a : List AEntry) : Option Int :=
  a.head?.map (fun e => e.pts)

/-- `save_buffer` from `src/main.rs:144-241`, as the ordered list of output
side effects together with the call's result.  Faithful to the source
order: the output file is created and the container header written first;
then the last keyframe boundary, its frame, and the oldest video pts are
looked up (each failure aborting with the corresponding `context` message);
the video frames with key `<= last_keyframe` are written rebased by the
oldest video pts with the dts offset clamped at `0`; then the audio frames
are written rebased by the oldest audio pts, stopping at the first frame
whose pts exceeds the last exported video frame's pts; finally the trailer
is written. -/
def saveBuffer (v : List VEntry) (a : List AEntry) :
    List Ev × Except String Unit :=
  let pre := [Ev.fileCreated, Ev.headerWritten]
  match lastGopStart v with
  | none => (pre, .error "Could not get last keyframe dts")
  | some k =>
    match v.find? (fun e => e.dts == k) with
    | none => (pre, .error "Could not get last keyframe")
    | some kent =>
      match v.head? with
      | none => (pre, .error "Could not get oldest pts when muxing.")
      | some h =>
        let vevs := (v.filter (fun e => decide (e.dts ≤ k))).map
          (fun e =>
            Ev.videoPacket (e.pts - h.pts) (max (e.dts - h.pts) 0) e.bytes)
        match a.head? with
        | none => (pre ++ vevs, .error "Could not get oldest chunk")
        | some ah =>
          let aevs := (a.takeWhile (fun e => decide (e.pts ≤ kent.pts))).map
            (fun e => Ev.audioPacket (e.pts - ah.pts) (e.pts - ah.pts) e.bytes)
          (pre ++ vevs ++ aevs ++ [Ev.trailerWritten], .ok ())

/-- The video packets among a list of output events, as
`(pts, dts, bytes)` triples in write order. -/
def videoPackets (evs : List Ev) : List (Int × Int × List Nat) :=
  evs.filterMap (fun e =>
    match e with
    | .videoPacket p d b => some (p, d, b)
    | _ => none)

/-- The audio packets among a list of output events, as
`(pts, dts, bytes)` triples in write order. -/
def audioPackets (evs : List Ev) : List (Int × Int × List Nat) :=
  evs.filterMap (fun e =>
    match e with
    | .audioPacket p d b => some (p, d, b)
    | _ => none)

/-- The state owned by the event loop of `src/main.rs`: each stream's
buffer, plus the frames still held inside the corresponding external
encoder's pipeline (released only by `drain`). -/
structure LoopState where
  vPending : List VEntry
  vBuf : List VEntry
  aPending : List AEntry
  aBuf : List AEntry
deriving DecidableEq

/-- The three inputs multiplexed by the `tokio::select!` loop in
`src/main.rs:101-141`: a save trigger, a raw video frame (already encoded
here, see `handleEvent`), and a raw audio frame. -/
inductive LoopEvent where
  | saveTrigger
  | videoRaw (e : VEntry)
  | audioRaw (e : AEntry)
deriving DecidableEq

/-- Modelled from the spec: `VideoEncoder::drain` / `AudioEncoder::drain`
(module `encoders`, absent from the sources) flush the external encoder's
internal pipeline so that every in-flight frame lands in the stream buffer
before the export reads it. -/
def drainEncoders (st : LoopState) : LoopState :=
  ⟨[], st.vBuf ++ st.vPending, [], st.aBuf ++ st.aPending⟩

/-- One iteration of the event loop of `src/main.rs:101-141`.  A raw frame
is encoded and appended to its stream buffer (the `process` calls of the
missing `encoders` module, modelled from the spec as a push).  A save
trigger drains both encoders, runs `save_buffer`, and on success resets
both encoders — clearing the buffers; every failure is propagated by `?`,
exactly as in the source. -/
def handleEvent (st : LoopState) : LoopEvent → Except String LoopState
  | .videoRaw e => .ok { st with vBuf := st.vBuf ++ [e] }
  | .audioRaw e => .ok { st with aBuf := st.aBuf ++ [e] }
  | .saveTrigger =>
    let st' := drainEncoders st
    match (saveBuffer st'.vBuf st'.aBuf).2 with
    | .error msg => .error msg
    | .ok _ => .ok ⟨[], [], [], []⟩

/-- The event loop itself: handle events in order; a propagated error
terminates the loop (the `loop` in `main` returns the error). -/
def runLoop : LoopState → List LoopEvent → Except String LoopState
  | st, [] => .ok st
  | st, ev :: evs =>
    match handleEvent st ev with
    | .error msg => .error msg
    | .ok st' => runLoop st' evs

/-! ### Invariant lemmas for the video eviction policy -/

lemma drainOnce_of_kfIdx_nil (s : EncState) (h : s.kfIdx = []) :
    drainOnce s = s := by
  cases s with
  | mk buffer kfIdx =>
    simp only [drainOnce] at *
    subst h
    simp

lemma evictCond_true_elim {maxT : Nat} {s : EncState}
    (hc : evictCond maxT s = true) :
    s.buffer ≠ [] ∧ s.kfIdx ≠ [] := by
  unfold evictCond at hc
  cases ho : s.buffer.head? with
  | none => rw [ho] at hc; simp at hc
  | some o =>
    cases hn : s.buffer.getLast? with
    | none => rw [ho, hn] at hc; simp at hc
    | some n =>
      rw [ho, hn] at hc
      simp only [Bool.and_eq_true, decide_eq_true_eq] at hc
      exact ⟨by intro h; rw [h] at ho; simp at ho, hc.2⟩

lemma drop_getElem? (l : List α) (d j : Nat) : (l.drop d)[j]? = l[d + j]? := by
  by_cases h : j < (l.drop d).length
  · rw [List.getElem?_eq_getElem h,
      List.getElem?_eq_getElem (by rw [List.length_drop] at h; omega)]
    exact congrArg some (List.getElem_drop ..)
  · rw [List.length_drop] at h
    rw [List.getElem?_eq_none (by rw [List.length_drop]; omega),
      List.getElem?_eq_none (by omega)]

lemma kfInv_drainOnce {s : EncState} (hs : KfInv s) : KfInv (drainOnce s) := by
  obtain ⟨hpw, hbnd, hkey, hcomp⟩ := hs
  cases hk : s.kfIdx with
  | nil => rw [drainOnce_of_kfIdx_nil s hk]; exact ⟨hpw, hbnd, hkey, hcomp⟩
  | cons d rest =>
    have hdmem : d ∈ s.kfIdx := by rw [hk]; exact List.mem_cons_self d rest
    have hd := hbnd d hdmem
    have hrest : ∀ r ∈ rest, d < r := by
      have := hpw; rw [hk] at this
      exact (List.pairwise_cons.mp this).1
    have hbuf : (drainOnce s).buffer = s.buffer.drop d := by
      simp [drainOnce, hk]
    have hidx : (drainOnce s).kfIdx = rest.map (fun i => i - d) := by
      simp only [drainOnce, hk, List.headD_cons, List.map_cons, Nat.sub_self]
      rw [List.filter_cons_of_neg (by simp)]
      apply List.filter_eq_self.mpr
      intro x hx
      obtain ⟨r, hr, rfl⟩ := List.mem_map.mp hx
      have := hrest r hr
      simp only [ne_eq, decide_eq_true_eq]
      omega
    have hlen : (drainOnce s).buffer.length = s.buffer.length - d := by
      rw [hbuf, List.length_drop]
    refine ⟨?_, ?_, ?_, ?_⟩
    · rw [hidx]
      rw [List.pairwise_map]
      have hrpw : rest.Pairwise (· < ·) := by
        have := hpw; rw [hk] at this
        exact (List.pairwise_cons.mp this).2
      refine hrpw.imp_of_mem ?_
      intro a b ha hb hab
      have := hrest a ha
      omega
    · intro i hi
      rw [hidx] at hi
      obtain ⟨r, hr, rfl⟩ := List.mem_map.mp hi
      have h1 := hbnd r (by rw [hk]; exact List.mem_cons_of_mem _ hr)
      have h2 := hrest r hr
      rw [hlen]
      omega
    · intro i hi f hf
      rw [hidx] at hi
      obtain ⟨r, hr, rfl⟩ := List.mem_map.mp hi
      have h2 := hrest r hr
      rw [hbuf, drop_getElem?] at hf
      have hix : d + (r - d) = r := by omega
      rw [hix] at hf
      exact hkey r (by rw [hk]; exact List.mem_cons_of_mem _ hr) f hf
    · intro j f hf hj hkeyf
      rw [hbuf, drop_getElem?] at hf
      have hmem := hcomp (d + j) f hf (by omega) hkeyf
      rw [hk] at hmem
      rcases List.mem_cons.mp hmem with heq | hmem2
      · omega
      · rw [hidx]
        exact List.mem_map.mpr ⟨d + j, hmem2, by omega⟩

lemma kfInv_evictLoop {maxT : Nat} :
    ∀ n (s : EncState), KfInv s → KfInv (evictLoop maxT n s)
  | 0, s, hs => hs
  | n + 1, s, hs => by
    unfold evictLoop
    by_cases hc : evictCond maxT s = true
    · rw [if_pos hc]
      exact kfInv_evictLoop n _ (kfInv_drainOnce hs)
    · rw [if_neg hc]
      exact hs

lemma kfInv_evict {maxT : Nat} {s : EncState} (hs : KfInv s) :
    KfInv (evict maxT s) :=
  kfInv_evictLoop _ _ hs

lemma pushBack_buffer (s : EncState) (f : VideoFrame) :
    (pushBack s f).buffer = s.buffer ++ [f] := rfl

lemma pushBack_kfIdx_pos {s : EncState} {f : VideoFrame}
    (hif : (f.isKey && decide (1 < (s.buffer ++ [f]).length)) = true) :
    (pushBack s f).kfIdx = s.kfIdx ++ [s.buffer.length] := by
  show (if f.isKey && decide (1 < (s.buffer ++ [f]).length) then
      s.kfIdx ++ [(s.buffer ++ [f]).length - 1] else s.kfIdx) = _
  rw [if_pos hif]
  simp

lemma pushBack_kfIdx_neg {s : EncState} {f : VideoFrame}
    (hif : ¬(f.isKey && decide (1 < (s.buffer ++ [f]).length)) = true) :
    (pushBack s f).kfIdx = s.kfIdx := by
  show (if f.isKey && decide (1 < (s.buffer ++ [f]).length) then
      s.kfIdx ++ [(s.buffer ++ [f]).length - 1] else s.kfIdx) = _
  rw [if_neg hif]

lemma kfInv_pushBack {s : EncState} (f : VideoFrame) (hs : KfInv s) :
    KfInv (pushBack s f) := by
  obtain ⟨hpw, hbnd, hkey, hcomp⟩ := hs
  have hbuf : (pushBack s f).buffer = s.buffer ++ [f] := pushBack_buffer s f
  have hlen : (pushBack s f).buffer.length = s.buffer.length + 1 := by
    rw [hbuf]; simp
  by_cases hif : (f.isKey && decide (1 < (s.buffer ++ [f]).length)) = true
  · have hidx := pushBack_kfIdx_pos hif
    simp only [Bool.and_eq_true, decide_eq_true_eq, List.length_append,
      List.length_singleton] at hif
    have hpos : 0 < s.buffer.length := by omega
    refine ⟨?_, ?_, ?_, ?_⟩
    · rw [hidx]
      rw [List.pairwise_append]
      refine ⟨hpw, List.pairwise_singleton _ _, ?_⟩
      intro a ha b hb
      rw [List.mem_singleton] at hb
      subst hb
      exact (hbnd a ha).2
    · intro i hi
      rw [hidx] at hi
      rw [hlen]
      rcases List.mem_append.mp hi with h1 | h1
      · have := hbnd i h1; omega
      · rw [List.mem_singleton] at h1; omega
    · intro i hi g hg
      rw [hidx] at hi
      rw [hbuf] at hg
      rcases List.mem_append.mp hi with h1 | h1
      · have hlt := (hbnd i h1).2
        rw [List.getElem?_append_left hlt] at hg
        exact hkey i h1 g hg
      · rw [List.mem_singleton] at h1
        subst h1
        rw [List.getElem?_concat_length] at hg
        cases hg
        exact hif.1
    · intro j g hg hj hkeyg
      rw [hidx]
      rw [hbuf] at hg
      by_cases hcase : j < s.buffer.length
      · rw [List.getElem?_append_left hcase] at hg
        exact List.mem_append.mpr (Or.inl (hcomp j g hg hj hkeyg))
      · have hj2 : j = s.buffer.length := by
          have := List.getElem?_eq_some_iff.mp hg
          obtain ⟨hlt2, _⟩ := this
          simp at hlt2
          omega
        subst hj2
        exact List.mem_append.mpr (Or.inr (List.mem_singleton.mpr rfl))
  · have hidx := pushBack_kfIdx_neg hif
    simp only [Bool.and_eq_true, decide_eq_true_eq, List.length_append,
      List.length_singleton, not_and, not_lt] at hif
    refine ⟨?_, ?_, ?_, ?_⟩
    · rw [hidx]; exact hpw
    · intro i hi
      rw [hidx] at hi
      have := hbnd i hi
      rw [hlen]
      omega
    · intro i hi g hg
      rw [hidx] at hi
      have hlt := (hbnd i hi).2
      rw [hbuf, List.getElem?_append_left hlt] at hg
      exact hkey i hi g hg
    · intro j g hg hj hkeyg
      rw [hidx]
      rw [hbuf] at hg
      by_cases hcase : j < s.buffer.length
      · rw [List.getElem?_append_left hcase] at hg
        exact hcomp j g hg hj hkeyg
      · have hj2 : j = s.buffer.length := by
          have := List.getElem?_eq_some_iff.mp hg
          obtain ⟨hlt2, _⟩ := this
          simp at hlt2
          omega
        subst hj2
        rw [List.getElem?_concat_length] at hg
        cases hg
        exfalso
        have := hif hkeyg
        omega

lemma kfInv_processFrame {maxT : Nat} {s : EncState} (f : VideoFrame)
    (hs : KfInv s) : KfInv (processFrame maxT s f) :=
  kfInv_pushBack f (kfInv_evict hs)

lemma kfInv_foldl {maxT : Nat} :
    ∀ (fs : List VideoFrame) (s : EncState), KfInv s →
      KfInv (fs.foldl (processFrame maxT) s)
  | [], _, hs => hs
  | f :: fs, s, hs => by
    rw [List.foldl_cons]
    exact kfInv_foldl fs _ (kfInv_processFrame f hs)

lemma kfInv_init : KfInv ⟨[], []⟩ := by
  refine ⟨List.Pairwise.nil, ?_, ?_, ?_⟩ <;> simp

lemma kfInv_runFrames (maxT : Nat) (fs : List VideoFrame) :
    KfInv (runFrames maxT fs) :=
  kfInv_foldl fs _ kfInv_init

/-- The head-keyframe invariant: the state satisfies the keyframe index
invariant, the buffer is non-empty, and the oldest retained frame is a
keyframe. -/
def GoodState (s : EncState) : Prop :=
  KfInv s ∧ s.buffer ≠ [] ∧
    ∀ x, s.buffer.head? = some x → x.isKey = true

lemma drainOnce_length (s : EncState) :
    (drainOnce s).buffer.length = s.buffer.length - s.kfIdx.headD 0 := by
  simp [drainOnce]

lemma good_drainOnce {s : EncState} (hg : GoodState s) :
    GoodState (drainOnce s) := by
  obtain ⟨hinv, hne, hhead⟩ := hg
  refine ⟨kfInv_drainOnce hinv, ?_, ?_⟩
  · cases hk : s.kfIdx with
    | nil => rw [drainOnce_of_kfIdx_nil s hk]; exact hne
    | cons d rest =>
      have hd := hinv.2.1 d (by rw [hk]; exact List.mem_cons_self d rest)
      apply List.ne_nil_of_length_pos
      rw [drainOnce_length, hk]
      simp only [List.headD_cons]
      omega
  · cases hk : s.kfIdx with
    | nil => rw [drainOnce_of_kfIdx_nil s hk]; exact hhead
    | cons d rest =>
      have hd := hinv.2.1 d (by rw [hk]; exact List.mem_cons_self d rest)
      intro x hx
      have hbuf : (drainOnce s).buffer = s.buffer.drop d := by
        simp [drainOnce, hk]
      rw [hbuf, List.head?_eq_getElem?, drop_getElem?] at hx
      exact hinv.2.2.1 d (by rw [hk]; exact List.mem_cons_self d rest) x
        (by rw [← hx]; norm_num)

lemma good_evictLoop {maxT : Nat} :
    ∀ n (s : EncState), GoodState s → GoodState (evictLoop maxT n s)
  | 0, s, hg => hg
  | n + 1, s, hg => by
    unfold evictLoop
    by_cases hc : evictCond maxT s = true
    · rw [if_pos hc]
      exact good_evictLoop n _ (good_drainOnce hg)
    · rw [if_neg hc]
      exact hg

lemma good_evict {maxT : Nat} {s : EncState} (hg : GoodState s) :
    GoodState (evict maxT s) :=
  good_evictLoop _ _ hg

lemma good_pushBack {s : EncState} (f : VideoFrame) (hg : GoodState s) :
    GoodState (pushBack s f) := by
  obtain ⟨hinv, hne, hhead⟩ := hg
  refine ⟨kfInv_pushBack f hinv, ?_, ?_⟩
  · rw [pushBack_buffer]
    simp
  · intro x hx
    rw [pushBack_buffer] at hx
    cases hb : s.buffer with
    | nil => exact absurd hb hne
    | cons y t =>
      rw [hb] at hx
      simp only [List.cons_append, List.head?_cons, Option.some.injEq] at hx
      rw [← hx]
      exact hhead y (by rw [hb]; rfl)

lemma good_processFrame {maxT : Nat} {s : EncState} (f : VideoFrame)
    (hg : GoodState s) : GoodState (processFrame maxT s f) :=
  good_pushBack f (good_evict hg)

lemma good_foldl {maxT : Nat} :
    ∀ (fs : List VideoFrame) (s : EncState), GoodState s →
      GoodState (fs.foldl (processFrame maxT) s)
  | [], _, hg => hg
  | f :: fs, s, hg => by
    rw [List.foldl_cons]
    exact good_foldl fs _ (good_processFrame f hg)

lemma good_first_push {maxT : Nat} {f0 : VideoFrame} (h0 : f0.isKey = true) :
    GoodState (processFrame maxT ⟨[], []⟩ f0) := by
  have hb : (processFrame maxT ⟨[], []⟩ f0).buffer = [f0] := rfl
  refine ⟨kfInv_processFrame f0 kfInv_init, ?_, ?_⟩
  · rw [hb]; simp
  · intro x hx
    rw [hb] at hx
    simp only [List.head?_cons, Option.some.injEq] at hx
    subst hx
    exact h0

lemma good_runFrames {maxT : Nat} {f0 : VideoFrame} (fs : List VideoFrame)
    (h0 : f0.isKey = true) : GoodState (runFrames maxT (f0 :: fs)) := by
  unfold runFrames
  rw [List.foldl_cons]
  exact good_foldl fs _ (good_first_push h0)

lemma evictLoop_post {maxT : Nat} :
    ∀ n (s : EncState), KfInv s → s.buffer.length ≤ n →
      evictCond maxT (evictLoop maxT n s) = false
  | 0, s, _, hlen => by
    have hnil : s.buffer = [] := by
      cases hb : s.buffer with
      | nil => rfl
      | cons x t => rw [hb] at hlen; simp at hlen
    simp [evictLoop, evictCond, hnil]
  | n + 1, s, hinv, hlen => by
    unfold evictLoop
    by_cases hc : evictCond maxT s = true
    · rw [if_pos hc]
      obtain ⟨hbne, hkne⟩ := evictCond_true_elim hc
      apply evictLoop_post n _ (kfInv_drainOnce hinv)
      cases hk : s.kfIdx with
      | nil => exact absurd hk hkne
      | cons d rest =>
        have hd := hinv.2.1 d (by rw [hk]; exact List.mem_cons_self d rest)
        have hbl : 0 < s.buffer.length := List.length_pos.mpr hbne
        rw [drainOnce_length, hk]
        simp only [List.headD_cons]
        omega
    · rw [if_neg hc]
      simpa using hc

lemma evict_post {maxT : Nat} {s : EncState} (hinv : KfInv s) :
    evictCond maxT (evict maxT s) = false :=
  evictLoop_post _ _ hinv le_rfl

lemma evictCond_false_elim {maxT : Nat} {s : EncState} {o n : VideoFrame}
    (hc : evictCond maxT s = false) (ho : s.buffer.head? = some o)
    (hn : s.buffer.getLast? = some n) :
    n.time - o.time < (maxT : Int) ∨ s.kfIdx = [] := by
  unfold evictCond at hc
  rw [ho, hn] at hc
  rcases Bool.and_eq_false_iff.mp hc with h1 | h1
  · left
    have := of_decide_eq_false h1
    omega
  · right
    have := of_decide_eq_false h1
    simpa using this

lemma no_key_after_front {s : EncState} (hinv : KfInv s)
    (hk : s.kfIdx = []) :
    ∀ j f, s.buffer[j]? = some f → 0 < j → f.isKey = false := by
  intro j f hf hj
  by_contra hcon
  have hkeyf : f.isKey = true := by
    cases hfk : f.isKey with
    | false => exact absurd hfk hcon
    | true => rfl
  have := hinv.2.2.2 j f hf hj hkeyf
  rw [hk] at this
  simp at this

lemma audioEvict_post (maxT : Nat) :
    ∀ (l : List AudioFrameData) (o n : AudioFrameData),
      (audioEvict maxT l).head? = some o →
      (audioEvict maxT l).getLast? = some n →
      n.time - o.time ≤ (maxT : Int)
  | [], o, n, ho, _ => by simp [audioEvict] at ho
  | f :: rest, o, n, ho, hn => by
    unfold audioEvict at ho hn
    by_cases hc : (maxT : Int) ≤
        ((f :: rest).getLast (List.cons_ne_nil f rest)).time - f.time
    · rw [if_pos hc] at ho hn
      exact audioEvict_post maxT rest o n ho hn
    · rw [if_neg hc] at ho hn
      simp only [List.head?_cons, Option.some.injEq] at ho
      rw [List.getLast?_eq_getLast _ (List.cons_ne_nil f rest)] at hn
      simp only [Option.some.injEq] at hn
      subst ho
      subst hn
      omega

/-! ### Claims C1, C2 and C10 -/

/-- C1 (counterexample).  The claim "for every sequence of video frames,
once at least one keyframe has been pushed, after every eviction pass the
oldest retained frame is a keyframe or the buffer holds at most one frame"
fails as stated: push a non-keyframe first and then a keyframe (both at
time 0, window 10).  A keyframe has been pushed, yet after the next
eviction pass the buffer holds two frames and its front is not a
keyframe — the keyframe pushed into the single-frame buffer is indexed but
nothing has evicted the non-keyframe in front of it. -/
theorem video_front_keyframe_claim_fails_on_nonkey_first_frame :
    (⟨true, 0⟩ : VideoFrame).isKey = true ∧
    (⟨true, 0⟩ : VideoFrame) ∈ [(⟨false, 0⟩ : VideoFrame), ⟨true, 0⟩] ∧
    ¬((((evict 10 (runFrames 10 [⟨false, 0⟩, ⟨true, 0⟩])).buffer.head?.all
        (fun f => f.isKey)) = true) ∨
      (evict 10 (runFrames 10 [⟨false, 0⟩, ⟨true, 0⟩])).buffer.length ≤ 1) := by
  refine ⟨rfl, by simp, ?_⟩
  decide

/-- C1 (amended).  If the first frame ever pushed is a keyframe (as is the
case for a freshly opened encoder, whose first emitted packet is a
keyframe), then after every eviction pass the oldest retained frame is a
keyframe, or the buffer holds at most one frame. -/
theorem video_front_keyframe_after_eviction (maxT : Nat) (f0 : VideoFrame)
    (fs : List VideoFrame) (h0 : f0.isKey = true) :
    (((evict maxT (runFrames maxT (f0 :: fs))).buffer.head?.all
      (fun f => f.isKey)) = true) ∨
    (evict maxT (runFrames maxT (f0 :: fs))).buffer.length ≤ 1 := by
  left
  have hg : GoodState (evict maxT (runFrames maxT (f0 :: fs))) :=
    good_evict (good_runFrames fs h0)
  obtain ⟨_, hne, hhead⟩ := hg
  cases hh : (evict maxT (runFrames maxT (f0 :: fs))).buffer.head? with
  | none => rfl
  | some x =>
    simp only [Option.all_some]
    exact hhead x hh

/-- C1 (witness): the amended theorem applied at window 2 and the pushed
sequence keyframe at time 0, non-keyframe at time 5. -/
theorem video_front_keyframe_after_eviction_witness :
    (((evict 2 (runFrames 2 [⟨true, 0⟩, ⟨false, 5⟩])).buffer.head?.all
      (fun f => f.isKey)) = true) ∨
    (evict 2 (runFrames 2 [⟨true, 0⟩, ⟨false, 5⟩])).buffer.length ≤ 1 :=
  video_front_keyframe_after_eviction 2 ⟨true, 0⟩ [⟨false, 5⟩] rfl

/-- C2.  After every eviction pass of the video buffer, the retained span
`newest.time - oldest.time` is at most `max_time`, unless no keyframe
strictly after the oldest retained frame exists yet (in which case eviction
is deferred); and after every eviction pass of the (spec-modelled) audio
buffer the span is at most the bound, unconditionally. -/
theorem span_bound_after_eviction :
    (∀ (maxT : Nat) (fs : List VideoFrame) (o n : VideoFrame),
      (evict maxT (runFrames maxT fs)).buffer.head? = some o →
      (evict maxT (runFrames maxT fs)).buffer.getLast? = some n →
      n.time - o.time ≤ (maxT : Int) ∨
      (∀ j f, (evict maxT (runFrames maxT fs)).buffer[j]? = some f →
        0 < j → f.isKey = false)) ∧
    (∀ (maxT : Nat) (l : List AudioFrameData) (o n : AudioFrameData),
      (audioEvict maxT l).head? = some o →
      (audioEvict maxT l).getLast? = some n →
      n.time - o.time ≤ (maxT : Int)) := by
  constructor
  · intro maxT fs o n ho hn
    have hinv : KfInv (runFrames maxT fs) := kfInv_runFrames maxT fs
    have hc : evictCond maxT (evict maxT (runFrames maxT fs)) = false :=
      evict_post hinv
    rcases evictCond_false_elim hc ho hn with h1 | h1
    · left; omega
    · right
      exact no_key_after_front (kfInv_evict hinv) h1
  · intro maxT l o n ho hn
    exact audioEvict_post maxT l o n ho hn

/-- C2 (witness): the video half at window 5 over a keyframe at time 0
followed by a non-keyframe at time 10 (span over the bound but no keyframe
after the front, so eviction was deferred), and the audio half at window 5
over frames at times 0 and 10 (trimmed to the single frame at time 10). -/
theorem span_bound_after_eviction_witness :
    ((⟨false, 10⟩ : VideoFrame).time - (⟨true, 0⟩ : VideoFrame).time ≤
        (5 : Int) ∨
      (∀ j f, (evict 5 (runFrames 5 [⟨true, 0⟩, ⟨false, 10⟩])).buffer[j]? =
        some f → 0 < j → f.isKey = false)) ∧
    ((⟨10, []⟩ : AudioFrameData).time - (⟨10, []⟩ : AudioFrameData).time ≤
      (5 : Int)) :=
  ⟨span_bound_after_eviction.1 5 [⟨true, 0⟩, ⟨false, 10⟩] ⟨true, 0⟩
      ⟨false, 10⟩ (by decide) (by decide),
    span_bound_after_eviction.2 5 [⟨0, []⟩, ⟨10, []⟩] ⟨10, []⟩ ⟨10, []⟩
      (by decide) (by decide)⟩

/-- C10.  After every video push (`runFrames`) and after every eviction
pass (`evict` of such a state), the keyframe index set is strictly
increasing, every entry is strictly positive and in bounds, and every
indexed frame was pushed as a keyframe (`KfInv` also records the converse:
every keyframe strictly after the front is indexed).  In particular a
keyframe pushed into an empty buffer is never added to the index set. -/
theorem keyframe_index_set_invariant :
    (∀ (maxT : Nat) (fs : List VideoFrame),
      KfInv (runFrames maxT fs) ∧ KfInv (evict maxT (runFrames maxT fs))) ∧
    (∀ (maxT : Nat) (f : VideoFrame),
      (processFrame maxT ⟨[], []⟩ f).kfIdx = []) := by
  constructor
  · intro maxT fs
    exact ⟨kfInv_runFrames maxT fs, kfInv_evict (kfInv_runFrames maxT fs)⟩
  · intro maxT f
    show (pushBack (evict maxT ⟨[], []⟩) f).kfIdx = []
    have : evict maxT ⟨[], []⟩ = (⟨[], []⟩ : EncState) := rfl
    rw [this, pushBack_kfIdx_neg]
    simp

/-! ### Claims C8 and C9 -/

/-- C8.  When the total sample count is not evenly divisible by the
encoder's channel count, `process_audio` returns `InvalidData` before
mutating anything: no frame is produced and the audio buffer is returned
unchanged. -/
theorem process_audio_rejects_unaligned_sample_count
    (nChannels frameSize : Nat) (buf : List AudioFrameData)
    (totalSamples : Nat) (timeMicro : Int)
    (emissions : Nat → List (List Nat))
    (h : totalSamples % nChannels ≠ 0) :
    process_audio nChannels frameSize buf totalSamples timeMicro emissions =
      (.error .invalidData, buf) := by
  unfold process_audio
  rw [if_pos h]

/-- C8 (witness): 999 samples with 2 channels are rejected and the buffer
is left untouched. -/
theorem process_audio_rejects_unaligned_sample_count_witness :
    process_audio 2 960 [⟨0, [1, 2]⟩] 999 0 (fun _ => []) =
      (.error .invalidData, [⟨0, [1, 2]⟩]) :=
  process_audio_rejects_unaligned_sample_count 2 960 [⟨0, [1, 2]⟩] 999 0
    (fun _ => []) (by decide)

lemma audioLoop_time_independent (frameSize : Nat)
    (em : Nat → List (List Nat)) (totalSamples : Nat) :
    ∀ (n f : Nat) (buf : List AudioFrameData) (tm tm' : Int), buf ≠ [] →
      audioLoop frameSize em tm totalSamples n f buf =
      audioLoop frameSize em tm' totalSamples n f buf
  | 0, _, _, _, _, _ => rfl
  | n + 1, f, buf, tm, tm', hne => by
    unfold audioLoop
    have hlast : buf.getLast? = some (buf.getLast hne) :=
      List.getLast?_eq_getLast buf hne
    simp only [hlast]
    by_cases hbr : f * frameSize + frameSize > totalSamples
    · rw [if_pos hbr, if_pos hbr]
    · rw [if_neg hbr, if_neg hbr]
      apply audioLoop_time_independent frameSize em totalSamples n (f + 1)
      intro hcontra
      exact hne (List.append_eq_nil.mp hcontra).1

lemma range_succ_progression (c fs : Int) (n : Nat) :
    (List.range (n + 1)).map (fun (j : Nat) => c + ((j : Int) + 1) * fs) =
      (c + fs) :: (List.range n).map
        (fun (j : Nat) => (c + fs) + ((j : Int) + 1) * fs) := by
  rw [List.range_succ_eq_map]
  rw [List.map_cons, List.map_map]
  congr 1
  · norm_num
  · apply List.map_congr_left
    intro j hj
    simp only [Function.comp_apply]
    push_cast
    ring

lemma audioLoop_times (frameSize : Nat) (em : Nat → List (List Nat))
    (totalSamples : Nat) (tm : Int)
    (hem : ∀ k, (em k).length = 1) :
    ∀ (n f : Nat) (buf : List AudioFrameData) (hne : buf ≠ []),
      (f + n) * frameSize ≤ totalSamples →
      (audioLoop frameSize em tm totalSamples n f buf).map
          (fun a => a.time) =
        buf.map (fun a => a.time) ++
          (List.range n).map
            (fun (j : Nat) => (buf.getLast hne).time + ((j : Int) + 1) * frameSize)
  | 0, f, buf, hne, hbound => by simp [audioLoop]
  | n + 1, f, buf, hne, hbound => by
    unfold audioLoop
    have hlast : buf.getLast? = some (buf.getLast hne) :=
      List.getLast?_eq_getLast buf hne
    simp only [hlast]
    have hbr : ¬(f * frameSize + frameSize > totalSamples) := by
      have h1 : (f + 1) * frameSize ≤ (f + (n + 1)) * frameSize :=
        Nat.mul_le_mul_right _ (by omega)
      push_neg
      calc f * frameSize + frameSize = (f + 1) * frameSize := by ring
        _ ≤ (f + (n + 1)) * frameSize := h1
        _ ≤ totalSamples := hbound
    rw [if_neg hbr]
    obtain ⟨d, hd⟩ : ∃ d, em f = [d] := by
      have hl := hem f
      cases hef : em f with
      | nil => rw [hef] at hl; simp at hl
      | cons x t =>
        rw [hef] at hl
        simp only [List.length_cons, Nat.add_left_eq_self,
          List.length_eq_zero] at hl
        exact ⟨x, by rw [hl]⟩
    rw [hd]
    simp only [List.map_cons, List.map_nil]
    have hne' : buf ++ [(⟨(buf.getLast hne).time + (frameSize : Int), d⟩ :
        AudioFrameData)] ≠ [] := by simp
    rw [audioLoop_times frameSize em totalSamples tm hem n (f + 1) _ hne'
      (by
        have : f + 1 + n = f + (n + 1) := by omega
        rw [this]
        exact hbound)]
    rw [List.getLast_concat]
    rw [range_succ_progression ((buf.getLast hne).time) (frameSize : Int) n]
    simp only [List.map_append, List.map_cons, List.map_nil]
    rw [List.append_assoc]
    rfl

/-- C9.  Every regrouped audio frame produced while the audio buffer is
non-empty receives the timestamp `previous_frame.pts + frame_size` rather
than a fresh wall-clock-derived value: over a non-empty buffer the whole
call is independent of `time_micro`, and (for an encoder emitting one
packet per frame) the appended timestamps are exactly the arithmetic
progression `last + frame_size, last + 2*frame_size, …`. -/
theorem regrouped_audio_pts_successor_of_previous
    (nChannels frameSize totalSamples : Nat) (buf : List AudioFrameData)
    (timeMicro timeMicro' : Int) (emissions : Nat → List (List Nat))
    (hne : buf ≠ []) (hdiv : totalSamples % nChannels = 0)
    (hem : ∀ k, (emissions k).length = 1) :
    process_audio nChannels frameSize buf totalSamples timeMicro emissions =
      process_audio nChannels frameSize buf totalSamples timeMicro'
        emissions ∧
    (process_audio nChannels frameSize buf totalSamples timeMicro
        emissions).2.map (fun a => a.time) =
      buf.map (fun a => a.time) ++
        (List.range (totalSamples / frameSize)).map
          (fun (j : Nat) => (buf.getLast hne).time + ((j : Int) + 1) * frameSize) := by
  have hcond : ¬(totalSamples % nChannels ≠ 0) := by simp [hdiv]
  constructor
  · unfold process_audio
    rw [if_neg hcond, if_neg hcond]
    rw [audioLoop_time_independent frameSize emissions totalSamples
      (totalSamples / frameSize) 0 buf timeMicro timeMicro' hne]
  · unfold process_audio
    rw [if_neg hcond]
    exact audioLoop_times frameSize emissions totalSamples timeMicro hem
      (totalSamples / frameSize) 0 buf hne
      (by simpa using Nat.div_mul_le_self totalSamples frameSize)

/-- C9 (witness): the theorem applied to a one-frame buffer at pts 100,
4 samples regrouped into frames of 2, one emitted packet per frame, and
two different wall-clock values: the result is identical and the appended
timestamps are 102 and 104. -/
theorem regrouped_audio_pts_successor_of_previous_witness :
    process_audio 1 2 [⟨100, []⟩] 4 5 (fun _ => [[7]]) =
      process_audio 1 2 [⟨100, []⟩] 4 9 (fun _ => [[7]]) ∧
    (process_audio 1 2 [⟨100, []⟩] 4 5 (fun _ => [[7]])).2.map
        (fun a => a.time) =
      ([⟨100, []⟩] : List AudioFrameData).map (fun a => a.time) ++
        (List.range (4 / 2)).map
          (fun (j : Nat) => (([⟨100, []⟩] : List AudioFrameData).getLast
            (by simp)).time + ((j : Int) + 1) * 2) :=
  regrouped_audio_pts_successor_of_previous 1 2 4 [⟨100, []⟩] 5 9
    (fun _ => [[7]]) (by simp) (by decide) (fun k => rfl)

/-! ### Helper lemmas for the export path (`save_buffer`) -/

lemma filter_eq_takeWhile_of_sorted {r : α → α → Prop} {p : α → Bool}
    (hdown : ∀ x y, r x y → p y = true → p x = true) :
    ∀ (l : List α), l.Pairwise r → l.filter p = l.takeWhile p
  | [], _ => rfl
  | x :: t, hpw => by
    obtain ⟨hx, ht⟩ := List.pairwise_cons.mp hpw
    by_cases hpx : p x = true
    · rw [List.filter_cons_of_pos hpx, List.takeWhile_cons_of_pos hpx]
      rw [filter_eq_takeWhile_of_sorted hdown t ht]
    · rw [List.filter_cons_of_neg hpx, List.takeWhile_cons_of_neg hpx]
      rw [List.filter_eq_nil_iff]
      intro b hb hpb
      exact hpx (hdown x b (hx b hb) hpb)

lemma takeWhile_eq_take (p : α → Bool) :
    ∀ (l : List α), l.takeWhile p = l.take (l.takeWhile p).length
  | [] => rfl
  | x :: t => by
    by_cases hp : p x = true
    · rw [List.takeWhile_cons_of_pos hp]
      simp only [List.length_cons, List.take_succ_cons]
      rw [← takeWhile_eq_take p t]
    · rw [List.takeWhile_cons_of_neg hp]
      rfl

lemma takeWhile_boundary (p : α → Bool) :
    ∀ (l : List α) (x : α), l[(l.takeWhile p).length]? = some x →
      p x = false
  | [], y, hy => by simp at hy
  | x :: t, y, hy => by
    by_cases hp : p x = true
    · rw [List.takeWhile_cons_of_pos hp] at hy
      simp only [List.length_cons, List.getElem?_cons_succ] at hy
      exact takeWhile_boundary p t y hy
    · rw [List.takeWhile_cons_of_neg hp] at hy
      simp only [List.length_nil, List.getElem?_cons_zero,
        Option.some.injEq] at hy
      rw [← hy]
      simpa using hp

lemma mem_rel_getLast {r : α → α → Prop} :
    ∀ {l : List α}, l.Pairwise r → ∀ {y}, l.getLast? = some y →
      ∀ x ∈ l, x = y ∨ r x y
  | [], _, y, hy => by simp at hy
  | h :: t, hpw, y, hy => by
    obtain ⟨hh, ht⟩ := List.pairwise_cons.mp hpw
    intro x hx
    cases hT : t with
    | nil =>
      subst hT
      have hy' : h = y := by simpa using hy
      subst hy'
      rcases List.mem_cons.mp hx with rfl | hx'
      · exact Or.inl rfl
      · simp at hx'
    | cons b u =>
      rw [hT] at hy
      rw [List.getLast?_cons_cons] at hy
      have hymem : y ∈ t := by
        rw [hT]
        exact List.mem_of_getLast?_eq_some hy
      rcases List.mem_cons.mp hx with rfl | hx'
      · exact Or.inr (hh y hymem)
      · rw [hT] at ht hx'
        exact mem_rel_getLast ht (by rw [← hT] at hy ⊢; exact hy) x hx'

/-- On a buffer strictly sorted by `dts`, the last frame with
`dts ≤ x.dts` is `x` itself, for any member `x`. -/
lemma getLast?_filter_dts_le :
    ∀ {v : List VEntry}, v.Pairwise (fun a b => a.dts < b.dts) →
      ∀ {x : VEntry}, x ∈ v →
        (v.filter (fun e => decide (e.dts ≤ x.dts))).getLast? = some x
  | [], _, x, hx => by cases hx
  | h :: t, hpw, x, hx => by
    obtain ⟨hh, ht⟩ := List.pairwise_cons.mp hpw
    rcases List.mem_cons.mp hx with rfl | hx'
    · rw [List.filter_cons_of_pos (by simp)]
      have hnil : t.filter (fun e => decide (e.dts ≤ x.dts)) = [] := by
        rw [List.filter_eq_nil_iff]
        intro b hb hcontra
        have h1 := hh b hb
        simp only [decide_eq_true_eq] at hcontra
        omega
      rw [hnil]
      rfl
    · have hlt : h.dts < x.dts := hh x hx'
      rw [List.filter_cons_of_pos (by simp only [decide_eq_true_eq]; omega)]
      have hmem : x ∈ t.filter (fun e => decide (e.dts ≤ x.dts)) :=
        List.mem_filter.mpr ⟨hx', by simp⟩
      have hne : t.filter (fun e => decide (e.dts ≤ x.dts)) ≠ [] :=
        List.ne_nil_of_mem hmem
      rw [List.getLast?_cons, getLast?_filter_dts_le ht hx']
      rfl

/-- On a buffer strictly sorted by `dts`, the filter `dts ≤ x.dts` keeps
the head, for any member `x`. -/
lemma head?_filter_dts_le {v : List VEntry} {h0 x : VEntry}
    (hs : v.Pairwise (fun a b => a.dts < b.dts)) (hh : v.head? = some h0)
    (hx : x ∈ v) :
    (v.filter (fun e => decide (e.dts ≤ x.dts))).head? = some h0 := by
  cases v with
  | nil => simp at hh
  | cons h t =>
    simp only [List.head?_cons, Option.some.injEq] at hh
    obtain ⟨hhd, _⟩ := List.pairwise_cons.mp hs
    have hle : h.dts ≤ x.dts := by
      rcases List.mem_cons.mp hx with rfl | hx'
      · exact le_rfl
      · exact le_of_lt (hhd x hx')
    rw [List.filter_cons_of_pos (by simpa using hle)]
    rw [List.head?_cons, hh]

/-- Distinct entries of a buffer strictly sorted by `dts` have distinct
keys. -/
lemma eq_of_dts_eq_of_sorted :
    ∀ {v : List VEntry}, v.Pairwise (fun a b => a.dts < b.dts) →
      ∀ {x y : VEntry}, x ∈ v → y ∈ v → x.dts = y.dts → x = y
  | [], _, x, _, hx, _, _ => by cases hx
  | h :: t, hpw, x, y, hx, hy, hdts => by
    obtain ⟨hh, ht⟩ := List.pairwise_cons.mp hpw
    rcases List.mem_cons.mp hx with rfl | hx' <;>
      rcases List.mem_cons.mp hy with h2 | hy'
    · rw [h2]
    · have := hh y hy'; omega
    · have := hh x hx'; rw [h2] at hdts; omega
    · exact eq_of_dts_eq_of_sorted ht hx' hy' hdts

lemma find?_dts_eq {v : List VEntry} {k : Int} {x : VEntry} (hx : x ∈ v)
    (hk : x.dts = k) :
    ∃ kent, v.find? (fun e => e.dts == k) = some kent ∧ kent ∈ v ∧
      kent.dts = k := by
  have hsome : (v.find? (fun e => e.dts == k)).isSome := by
    rw [List.find?_isSome]
    exact ⟨x, hx, by simp [hk]⟩
  obtain ⟨kent, hkent⟩ := Option.isSome_iff_exists.mp hsome
  refine ⟨kent, hkent, List.mem_of_find?_eq_some hkent, ?_⟩
  have := List.find?_some hkent
  simpa using this

lemma videoPackets_append (l1 l2 : List Ev) :
    videoPackets (l1 ++ l2) = videoPackets l1 ++ videoPackets l2 :=
  List.filterMap_append ..

lemma audioPackets_append (l1 l2 : List Ev) :
    audioPackets (l1 ++ l2) = audioPackets l1 ++ audioPackets l2 :=
  List.filterMap_append ..

lemma videoPackets_video_map (l : List VEntry) (f1 f2 : VEntry → Int) :
    videoPackets (l.map (fun e => Ev.videoPacket (f1 e) (f2 e) e.bytes)) =
      l.map (fun e => (f1 e, f2 e, e.bytes)) := by
  induction l with
  | nil => rfl
  | cons x t ih => simp [videoPackets, List.filterMap_cons] at ih ⊢; exact ih

lemma videoPackets_audio_map (l : List AEntry) (f1 f2 : AEntry → Int) :
    videoPackets (l.map (fun e => Ev.audioPacket (f1 e) (f2 e) e.bytes)) =
      [] := by
  induction l with
  | nil => rfl
  | cons x t ih => simp [videoPackets, List.filterMap_cons, ih]

lemma audioPackets_audio_map (l : List AEntry) (f1 f2 : AEntry → Int) :
    audioPackets (l.map (fun e => Ev.audioPacket (f1 e) (f2 e) e.bytes)) =
      l.map (fun e => (f1 e, f2 e, e.bytes)) := by
  induction l with
  | nil => rfl
  | cons x t ih => simp [audioPackets, List.filterMap_cons] at ih ⊢; exact ih

lemma audioPackets_video_map (l : List VEntry) (f1 f2 : VEntry → Int) :
    audioPackets (l.map (fun e => Ev.videoPacket (f1 e) (f2 e) e.bytes)) =
      [] := by
  induction l with
  | nil => rfl
  | cons x t ih => simp [audioPackets, List.filterMap_cons, ih]

/-- The video packets written by `save_buffer` when the three lookups
succeed: the frames with key up to the last keyframe boundary, each rebased
by the oldest video pts with the dts clamped at zero. -/
lemma videoPackets_saveBuffer {v : List VEntry} {a : List AEntry} {k : Int}
    {kent h0 : VEntry}
    (hlg : lastGopStart v = some k)
    (hfind : v.find? (fun e => e.dts == k) = some kent)
    (hh : v.head? = some h0) :
    videoPackets (saveBuffer v a).1 =
      (v.filter (fun e => decide (e.dts ≤ k))).map
        (fun e => (e.pts - h0.pts, max (e.dts - h0.pts) 0, e.bytes)) := by
  unfold saveBuffer
  simp only [hlg, hfind, hh]
  cases hah : a.head? with
  | none =>
    simp only
    rw [videoPackets_append, videoPackets_video_map]
    rfl
  | some ah =>
    simp only
    rw [videoPackets_append, videoPackets_append, videoPackets_append,
      videoPackets_video_map, videoPackets_audio_map]
    simp [videoPackets]

/-- The audio packets written by `save_buffer` when all lookups succeed:
the audio frames up to the first one whose pts exceeds the last exported
video frame's pts, rebased by the oldest audio pts. -/
lemma audioPackets_saveBuffer {v : List VEntry} {a : List AEntry} {k : Int}
    {kent h0 : VEntry} {ah0 : AEntry}
    (hlg : lastGopStart v = some k)
    (hfind : v.find? (fun e => e.dts == k) = some kent)
    (hh : v.head? = some h0) (hah : a.head? = some ah0) :
    audioPackets (saveBuffer v a).1 =
      (a.takeWhile (fun e => decide (e.pts ≤ kent.pts))).map
        (fun e => (e.pts - ah0.pts, e.pts - ah0.pts, e.bytes)) := by
  unfold saveBuffer
  simp only [hlg, hfind, hh, hah]
  rw [audioPackets_append, audioPackets_append, audioPackets_append,
    audioPackets_video_map, audioPackets_audio_map]
  simp [audioPackets]

/-! ### Claim C7 -/

/-- C7 (counterexample).  The claim "on an empty video buffer the export
aborts with a 'no oldest pts' error before any output file is created, and
no output file exists afterwards" fails: in `save_buffer` the output file
is created and the container header written before any buffer lookup, the
first failing lookup is the last-keyframe one (so the reported error is
`Could not get last keyframe dts`, not the oldest-pts message), and nothing
deletes the file afterwards. -/
theorem empty_buffer_export_creates_file_before_error :
    (saveBuffer [] []).2 = .error "Could not get last keyframe dts" ∧
    Ev.fileCreated ∈ (saveBuffer [] []).1 ∧
    Ev.headerWritten ∈ (saveBuffer [] []).1 := by
  refine ⟨rfl, ?_, ?_⟩ <;> decide

/-- C7 (amended).  When the video buffer is empty at export time, the
export aborts with the descriptive error `Could not get last keyframe dts`
(the "no oldest pts" check is never reached) — but only after the output
file has been created and its header written; no packet and no trailer is
written, and the file is left in existence. -/
theorem empty_video_buffer_export_behavior (a : List AEntry) :
    saveBuffer [] a =
      ([Ev.fileCreated, Ev.headerWritten],
        .error "Could not get last keyframe dts") := rfl

lemma lastGopStart_elim {v : List VEntry} {k : Int}
    (hlg : lastGopStart v = some k) :
    ∃ kf, (v.filter (fun e => e.isKey)).getLast? = some kf ∧ kf ∈ v ∧
      kf.isKey = true ∧ kf.dts = k := by
  unfold lastGopStart at hlg
  obtain ⟨kf, h1, h2⟩ := Option.map_eq_some'.mp hlg
  have hmem := List.mem_of_getLast?_eq_some h1
  have h3 := List.mem_filter.mp hmem
  exact ⟨kf, h1, h3.1, h3.2, h2⟩

/-! ### Claims C3 and C4 -/

/-- C3.  For every export over a video buffer (strictly sorted by its dts
key) that records a keyframe, the exported video packets are exactly the
first `n` buffered frames in order, the `n`-th frame is a keyframe whose
key is the export's end boundary `k = get_last_gop_start`, no frame after
position `n` is exported, and no keyframe lies after position `n` (so the
boundary is the **last** keyframe recorded). -/
theorem export_ends_at_last_video_keyframe
    (v : List VEntry) (a : List AEntry) (k : Int) (h0 : VEntry)
    (hs : v.Pairwise (fun x y => x.dts < y.dts))
    (hlg : lastGopStart v = some k)
    (hh : v.head? = some h0) :
    ∃ n, 0 < n ∧ n ≤ v.length ∧
      videoPackets (saveBuffer v a).1 =
        (v.take n).map
          (fun e => (e.pts - h0.pts, max (e.dts - h0.pts) 0, e.bytes)) ∧
      (∃ kf, v[n - 1]? = some kf ∧ kf.isKey = true ∧ kf.dts = k) ∧
      (∀ j f, v[j]? = some f → n ≤ j → f.isKey = false) := by
  obtain ⟨kf, hkl, hkmem, hkkey, hkdts⟩ := lastGopStart_elim hlg
  obtain ⟨kent, hfind, _, _⟩ := find?_dts_eq hkmem hkdts
  have hvp := videoPackets_saveBuffer (a := a) hlg hfind hh
  have hft : v.filter (fun e => decide (e.dts ≤ k)) =
      v.takeWhile (fun e => decide (e.dts ≤ k)) := by
    apply filter_eq_takeWhile_of_sorted (r := fun x y => x.dts < y.dts)
    · intro x y hr hy
      simp only [decide_eq_true_eq] at hy ⊢
      omega
    · exact hs
  have hlast : (v.filter (fun e => decide (e.dts ≤ k))).getLast? = some kf := by
    have h1 := getLast?_filter_dts_le hs hkmem
    rw [hkdts] at h1
    exact h1
  have hne : v.filter (fun e => decide (e.dts ≤ k)) ≠ [] := by
    intro hcon
    rw [hcon] at hlast
    simp at hlast
  refine ⟨(v.filter (fun e => decide (e.dts ≤ k))).length,
    List.length_pos.mpr hne, List.length_filter_le _ v, ?_, ?_, ?_⟩
  · rw [hvp]
    congr 1
    rw [hft]
    exact takeWhile_eq_take _ v
  · refine ⟨kf, ?_, hkkey, hkdts⟩
    have htake : v.filter (fun e => decide (e.dts ≤ k)) =
        v.take (v.filter (fun e => decide (e.dts ≤ k))).length := by
      conv_lhs => rw [hft, takeWhile_eq_take]
      rw [hft]
    have h1 : (v.take (v.filter (fun e => decide (e.dts ≤ k))).length).getLast?
        = some kf := by
      rw [← htake]
      exact hlast
    rw [List.getLast?_eq_getElem?] at h1
    have hlen : (v.take (v.filter (fun e => decide (e.dts ≤ k))).length).length
        = (v.filter (fun e => decide (e.dts ≤ k))).length := by
      rw [List.length_take]
      have := List.length_filter_le (fun e => decide (e.dts ≤ k)) v
      omega
    rw [hlen] at h1
    rw [List.getElem?_take_of_lt (by
      have := List.length_pos.mpr hne
      omega)] at h1
    exact h1
  · intro j f hjf hnj
    by_contra hcon
    have hkeyf : f.isKey = true := by
      cases hfk : f.isKey with
      | true => rfl
      | false => exact absurd hfk hcon
    have hfmem : f ∈ v := List.getElem?_mem hjf
    have hjlen : j < v.length := (List.getElem?_eq_some_iff.mp hjf).1
    have hnlt : (v.filter (fun e => decide (e.dts ≤ k))).length < v.length :=
      by omega
    obtain ⟨b, hb⟩ : ∃ b,
        v[(v.filter (fun e => decide (e.dts ≤ k))).length]? = some b :=
      ⟨_, List.getElem?_eq_getElem hnlt⟩
    have hpb : (fun e => decide (e.dts ≤ k)) b = false := by
      apply takeWhile_boundary _ v b
      rw [← hft]
      exact hb
    have hbdts : ¬(b.dts ≤ k) := by simpa using hpb
    have hjd : b.dts ≤ f.dts := by
      rcases Nat.eq_or_lt_of_le hnj with heq | hlt
      · rw [← heq] at hjf
        rw [hjf] at hb
        cases hb
        exact le_rfl
      · have h2 := List.pairwise_iff_getElem.mp hs _ j hnlt hjlen hlt
        have hb2 := hb
        rw [List.getElem?_eq_getElem hnlt] at hb2
        have hj2 := hjf
        rw [List.getElem?_eq_getElem hjlen] at hj2
        rw [Option.some.inj hb2, Option.some.inj hj2] at h2
        exact le_of_lt h2
    have hfmemf : f ∈ v.filter (fun e => e.isKey) :=
      List.mem_filter.mpr ⟨hfmem, by simp [hkeyf]⟩
    have hpwf : (v.filter (fun e => e.isKey)).Pairwise
        (fun x y => x.dts < y.dts) := hs.filter _
    rcases mem_rel_getLast hpwf hkl f hfmemf with heq | hrel
    · rw [heq] at hjd
      omega
    · omega

/-- C3 (witness): the theorem applied to a two-frame buffer (keyframe at
dts 0, non-keyframe keyframe-closed at dts 10 flagged keyframe) — the
export keeps both frames and ends at the second, the last keyframe. -/
theorem export_ends_at_last_video_keyframe_witness :
    ∃ n, 0 < n ∧ n ≤ ([⟨0, 0, true, [1]⟩, ⟨10, 10, true, [2]⟩] :
        List VEntry).length ∧
      videoPackets (saveBuffer [⟨0, 0, true, [1]⟩, ⟨10, 10, true, [2]⟩]
          []).1 =
        (([⟨0, 0, true, [1]⟩, ⟨10, 10, true, [2]⟩] : List VEntry).take n).map
          (fun e => (e.pts - (⟨0, 0, true, [1]⟩ : VEntry).pts,
            max (e.dts - (⟨0, 0, true, [1]⟩ : VEntry).pts) 0, e.bytes)) ∧
      (∃ kf, ([⟨0, 0, true, [1]⟩, ⟨10, 10, true, [2]⟩] :
          List VEntry)[n - 1]? = some kf ∧ kf.isKey = true ∧
          kf.dts = 10) ∧
      (∀ j f, ([⟨0, 0, true, [1]⟩, ⟨10, 10, true, [2]⟩] :
          List VEntry)[j]? = some f → n ≤ j → f.isKey = false) :=
  export_ends_at_last_video_keyframe
    [⟨0, 0, true, [1]⟩, ⟨10, 10, true, [2]⟩] [] 10 ⟨0, 0, true, [1]⟩
    (by simp) (by decide) (by decide)

/-- C4.  Every exported video packet's pts is the frame's pts minus the
video buffer's oldest pts, its dts is the frame's dts key minus that same
offset clamped below at 0, and the first exported video packet's rebased
pts is 0. -/
theorem export_video_rebase_formulas
    (v : List VEntry) (a : List AEntry) (k : Int) (h0 : VEntry)
    (hs : v.Pairwise (fun x y => x.dts < y.dts))
    (hlg : lastGopStart v = some k)
    (hh : v.head? = some h0) :
    videoPackets (saveBuffer v a).1 =
      (v.filter (fun e => decide (e.dts ≤ k))).map
        (fun e => (e.pts - h0.pts, max (e.dts - h0.pts) 0, e.bytes)) ∧
    (videoPackets (saveBuffer v a).1).head? =
      some (0, max (h0.dts - h0.pts) 0, h0.bytes) := by
  obtain ⟨kf, hkl, hkmem, hkkey, hkdts⟩ := lastGopStart_elim hlg
  obtain ⟨kent, hfind, _, _⟩ := find?_dts_eq hkmem hkdts
  have hvp := videoPackets_saveBuffer (a := a) hlg hfind hh
  refine ⟨hvp, ?_⟩
  rw [hvp]
  have hhead : (v.filter (fun e => decide (e.dts ≤ k))).head? = some h0 := by
    have h1 := head?_filter_dts_le hs hh hkmem
    rw [hkdts] at h1
    exact h1
  rw [List.head?_map, hhead]
  simp

/-- C4 (witness): on a single-keyframe buffer whose frame has dts 3 and
pts 7, the exported packet list carries pts `7 - 7 = 0` and clamped dts
`max (3 - 7) 0 = 0`. -/
theorem export_video_rebase_formulas_witness :
    videoPackets (saveBuffer [⟨3, 7, true, [9]⟩] []).1 =
      (([⟨3, 7, true, [9]⟩] : List VEntry).filter
          (fun e => decide (e.dts ≤ 3))).map
        (fun e => (e.pts - (⟨3, 7, true, [9]⟩ : VEntry).pts,
          max (e.dts - (⟨3, 7, true, [9]⟩ : VEntry).pts) 0, e.bytes)) ∧
    (videoPackets (saveBuffer [⟨3, 7, true, [9]⟩] []).1).head? =
      some (0, max ((⟨3, 7, true, [9]⟩ : VEntry).dts -
        (⟨3, 7, true, [9]⟩ : VEntry).pts) 0,
        (⟨3, 7, true, [9]⟩ : VEntry).bytes) :=
  export_video_rebase_formulas [⟨3, 7, true, [9]⟩] [] 3 ⟨3, 7, true, [9]⟩
    (by simp) (by decide) (by decide)

/-! ### Claim C5 -/

/-- C5 (counterexample).  The claim "no exported audio frame's rebased pts
exceeds the last exported video frame's rebased pts" fails as stated when
the audio buffer's oldest pts is smaller than the video buffer's oldest
pts: video buffer with one keyframe (dts 0, pts 100), audio frames at pts
0 and 100.  The audio frame at pts 100 passes the `pts > newest_video_pts`
cut (100 ≤ 100) but rebases to `100 - 0 = 100`, while the last video
packet rebases to `100 - 100 = 0`. -/
theorem audio_clipping_claim_fails_when_audio_starts_earlier :
    ∃ p ∈ audioPackets (saveBuffer [⟨0, 100, true, []⟩]
        [⟨0, []⟩, ⟨100, []⟩]).1,
      ∃ q, (videoPackets (saveBuffer [⟨0, 100, true, []⟩]
          [⟨0, []⟩, ⟨100, []⟩]).1).getLast? = some q ∧ q.1 < p.1 := by
  refine ⟨(100, 100, []), by decide, (0, 0, []), by decide, by decide⟩

/-- C5 (amended).  For every export over sorted buffers, the exported
audio packets are exactly the audio frames whose original pts does not
exceed the last exported video frame's pts (later frames are dropped),
each rebased against the audio buffer's own oldest pts, in strictly
increasing pts order; and — provided the audio buffer's oldest pts is at
least the video buffer's oldest pts, as arranged by the readiness
handshake that drops audio until video is live — no exported audio
packet's rebased pts exceeds the last exported video packet's rebased
pts. -/
theorem audio_export_clipped_when_offsets_aligned
    (v : List VEntry) (a : List AEntry) (k : Int) (kent h0 : VEntry)
    (ah0 : AEntry)
    (hs : v.Pairwise (fun x y => x.dts < y.dts))
    (hsa : a.Pairwise (fun x y => x.pts < y.pts))
    (hlg : lastGopStart v = some k)
    (hfind : v.find? (fun e => e.dts == k) = some kent)
    (hh : v.head? = some h0) (hah : a.head? = some ah0)
    (hoff : h0.pts ≤ ah0.pts) :
    audioPackets (saveBuffer v a).1 =
      (a.filter (fun e => decide (e.pts ≤ kent.pts))).map
        (fun e => (e.pts - ah0.pts, e.pts - ah0.pts, e.bytes)) ∧
    (audioPackets (saveBuffer v a).1).Pairwise (fun p q => p.1 < q.1) ∧
    (∀ q, (videoPackets (saveBuffer v a).1).getLast? = some q →
      ∀ p ∈ audioPackets (saveBuffer v a).1, p.1 ≤ q.1) := by
  obtain ⟨kf, hkl, hkmem, hkkey, hkdts⟩ := lastGopStart_elim hlg
  have hkentmem : kent ∈ v := List.mem_of_find?_eq_some hfind
  have hkentdts : kent.dts = k := by
    have := List.find?_some hfind
    simpa using this
  have hap := audioPackets_saveBuffer hlg hfind hh hah
  have hfta : a.filter (fun e => decide (e.pts ≤ kent.pts)) =
      a.takeWhile (fun e => decide (e.pts ≤ kent.pts)) := by
    apply filter_eq_takeWhile_of_sorted (r := fun x y => x.pts < y.pts)
    · intro x y hr hy
      simp only [decide_eq_true_eq] at hy ⊢
      omega
    · exact hsa
  refine ⟨by rw [hap, hfta], ?_, ?_⟩
  · rw [hap]
    rw [List.pairwise_map]
    have hsub : List.Sublist (a.takeWhile (fun e => decide
        (e.pts ≤ kent.pts))) a := List.takeWhile_sublist _
    have hpw := hsa.sublist hsub
    refine List.Pairwise.imp ?_ hpw
    intro x y hxy
    show x.pts - ah0.pts < y.pts - ah0.pts
    omega
  · intro q hq p hp
    have hvp := videoPackets_saveBuffer (a := a) hlg hfind hh
    rw [hvp] at hq
    rw [List.getLast?_map] at hq
    have hkeq : kent = kf := eq_of_dts_eq_of_sorted hs hkentmem hkmem
      (by rw [hkentdts, hkdts])
    have hlastf : (v.filter (fun e => decide (e.dts ≤ k))).getLast? =
        some kf := by
      have h1 := getLast?_filter_dts_le hs hkmem
      rw [hkdts] at h1
      exact h1
    rw [hlastf] at hq
    simp only [Option.map_some', Option.some.injEq] at hq
    rw [hap] at hp
    obtain ⟨e, he, rfl⟩ := List.mem_map.mp hp
    have hecap : e.pts ≤ kent.pts := by
      have := List.mem_takeWhile_imp he
      simpa using this
    rw [← hq]
    show e.pts - ah0.pts ≤ kf.pts - h0.pts
    rw [hkeq] at hecap
    omega

/-- C5 (witness): the amended theorem applied to a video buffer with one
keyframe (dts 0, pts 5) and audio frames at pts 6 and 50: the frame at 50
is dropped (50 > 5), the frame at 6 is exported rebased to 0, which does
not exceed the last video packet's rebased pts 0. -/
theorem audio_export_clipped_when_offsets_aligned_witness :
    audioPackets (saveBuffer [⟨0, 5, true, []⟩] [⟨6, [4]⟩, ⟨50, [8]⟩]).1 =
      (([⟨6, [4]⟩, ⟨50, [8]⟩] : List AEntry).filter
          (fun e => decide (e.pts ≤ (⟨0, 5, true, []⟩ : VEntry).pts))).map
        (fun e => (e.pts - (⟨6, [4]⟩ : AEntry).pts,
          e.pts - (⟨6, [4]⟩ : AEntry).pts, e.bytes)) ∧
    (audioPackets (saveBuffer [⟨0, 5, true, []⟩]
        [⟨6, [4]⟩, ⟨50, [8]⟩]).1).Pairwise (fun p q => p.1 < q.1) ∧
    (∀ q, (videoPackets (saveBuffer [⟨0, 5, true, []⟩]
        [⟨6, [4]⟩, ⟨50, [8]⟩]).1).getLast? = some q →
      ∀ p ∈ audioPackets (saveBuffer [⟨0, 5, true, []⟩]
        [⟨6, [4]⟩, ⟨50, [8]⟩]).1, p.1 ≤ q.1) :=
  audio_export_clipped_when_offsets_aligned [⟨0, 5, true, []⟩]
    [⟨6, [4]⟩, ⟨50, [8]⟩] 0 ⟨0, 5, true, []⟩ ⟨0, 5, true, []⟩ ⟨6, [4]⟩
    (by simp) (by simp) (by decide) (by decide) (by decide) (by decide)
    (by decide)

/-! ### Claim C6 -/

/-- C6 (counterexample).  The claim "an export failure does not propagate
into the capture loop — capture continues" fails: triggering a save on
empty buffers makes `save_buffer` fail, the `?` in the event loop
propagates the error, the loop terminates with it, and the video frame
queued behind the trigger is never processed. -/
theorem export_failure_terminates_event_loop :
    runLoop ⟨[], [], [], []⟩ [.saveTrigger, .videoRaw ⟨0, 0, true, []⟩] =
      .error "Could not get last keyframe dts" := rfl

/-- C6 (amended).  If `save_buffer` fails, the buffers are preserved
untouched by the export itself — at the moment of failure they hold
exactly the pre-trigger content plus the frames the drain step released,
and nothing is cleared (encoders are reset only after a successful
export) — but the failure propagates out of the event loop via `?`,
terminating it: no later event is processed, so a retry trigger never
reaches the preserved buffers. -/
theorem export_failure_preserves_buffers_but_propagates
    (st : LoopState) (msg : String)
    (hfail : (saveBuffer (drainEncoders st).vBuf
      (drainEncoders st).aBuf).2 = .error msg) :
    handleEvent st .saveTrigger = .error msg ∧
    (drainEncoders st).vBuf = st.vBuf ++ st.vPending ∧
    (drainEncoders st).aBuf = st.aBuf ++ st.aPending ∧
    (∀ evs, runLoop st (.saveTrigger :: evs) = .error msg) := by
  have h1 : handleEvent st .saveTrigger = .error msg := by
    unfold handleEvent
    simp only [hfail]
  refine ⟨h1, rfl, rfl, ?_⟩
  intro evs
  unfold runLoop
  rw [h1]

/-- C6 (witness): the amended theorem applied to the empty loop state,
whose save trigger fails with the last-keyframe lookup error. -/
theorem export_failure_preserves_buffers_but_propagates_witness :
    handleEvent ⟨[], [], [], []⟩ .saveTrigger =
      .error "Could not get last keyframe dts" ∧
    (drainEncoders ⟨[], [], [], []⟩).vBuf = [] ++ [] ∧
    (drainEncoders ⟨[], [], [], []⟩).aBuf = [] ++ [] ∧
    (∀ evs, runLoop ⟨[], [], [], []⟩ (.saveTrigger :: evs) =
      .error "Could not get last keyframe dts") :=
  export_failure_preserves_buffers_but_propagates ⟨[], [], [], []⟩
    "Could not get last keyframe dts" rfl

end ScreenRecorder
